import Mathlib

/-
Shallow embedding of src/linked_hashmap.hpp (namespace sjtu).

The C++ container keeps every stored pair in a heap Node carrying four
link pointers: prev/next (the insertion-order doubly linked list running
from head to tail) and hash_prev/hash_next (the separately chained bucket
list of the hash table).  We embed:

  * the order list (head, tail, prev, next) as the Lean list order,
    head to tail;
  * the hash table (Node** hash_table with table_size buckets) as
    buckets : List (List Node), each inner list being one bucket chain
    read from the bucket head along hash_next;
  * Node addresses (needed because iterators compare and store raw
    pointers) as the id field, allocated by next_id, which models new;
  * the container identity tag held by iterators (const linked_hashmap*)
    as a Nat;
  * a thrown exception as a Bool flag (true = the call threw) or, for
    value-returning calls, as an Option result (none = the call threw).

The hash functor is an arbitrary function hk : K to Nat and std::equal_to
is decidable equality on K.  table_size is derived as buckets.length; the
C++ field is kept equal to the array length at all times.
-/

namespace sjtu

structure Node (K V : Type) where
  id : Nat
  key : K
  data : V
deriving DecidableEq, Repr

structure linked_hashmap (K V : Type) where
  order : List (Node K V)
  buckets : List (List (Node K V))
  element_count : Nat
  next_id : Nat
deriving DecidableEq, Repr

namespace linked_hashmap

variable {K V : Type} [DecidableEq K]

def INITIAL_SIZE : Nat := 16

def table_size (m : linked_hashmap K V) : Nat := m.buckets.length

/-- initialize_table(size): a table of size empty bucket chains. -/
def initialize_table (K V : Type) (size : Nat) : List (List (Node K V)) :=
  List.replicate size []

/-- The default constructor: empty map with table of INITIAL_SIZE buckets. -/
def mkmap (K V : Type) : linked_hashmap K V :=
  { order := [], buckets := initialize_table K V INITIAL_SIZE
    element_count := 0, next_id := 0 }

/-- An empty map over a table of the given capacity (used by the copy
constructor, which calls initialize_table(other.table_size)). -/
def emptyWith (K V : Type) (cap : Nat) : linked_hashmap K V :=
  { order := [], buckets := initialize_table K V cap
    element_count := 0, next_id := 0 }

/-- find_node(key): walk the chain of bucket hash(key) % table_size and
return the first node whose key compares equal. -/
def find_node (hk : K → Nat) (m : linked_hashmap K V) (k : K) :
    Option (Node K V) :=
  (m.buckets.getD (hk k % m.table_size) []).find? (fun n => n.key = k)

/-- Push a node at the head of its bucket chain of a table with sz
buckets: the hash table insertion step shared by insert and the rehash
loop. -/
def chainStep (hk : K → Nat) (sz : Nat) (tbl : List (List (Node K V)))
    (n : Node K V) : List (List (Node K V)) :=
  tbl.set (hk n.key % sz) (n :: tbl.getD (hk n.key % sz) [])

/-- The rehash loop over the whole order list: each node is pushed at
the head of its recomputed bucket chain of the new table, traversing the
order list head to tail. -/
def distribute (hk : K → Nat) (sz : Nat) (l : List (Node K V)) :
    List (List (Node K V)) :=
  l.foldl (chainStep hk sz) (List.replicate sz [])

/-- rehash(): double the table, re-chain every node by traversing the
order list; the order list itself (prev and next) is untouched. -/
def rehash (hk : K → Nat) (m : linked_hashmap K V) : linked_hashmap K V :=
  { m with buckets := distribute hk (m.table_size * 2) m.order }

/-- insert(value): if the key is found, return (pointer to the existing
node, false) and change nothing.  Otherwise grow when the load check
fires, allocate a node, append it to the order list, push it at the head
of its bucket chain and bump the count.  The C++ load check
element_count greater-or-equal table_size * 0.75 is a size_t against
double comparison; table_size is always a multiple of 4, so 0.75 times
table_size is an exact double and the test is exactly
3 * table_size less-or-equal 4 * element_count. -/
def insert (hk : K → Nat) (m : linked_hashmap K V) (k : K) (v : V) :
    linked_hashmap K V × (Option Nat × Bool) :=
  match find_node hk m k with
  | some existing => (m, (some existing.id, false))
  | none =>
    let m1 := if 3 * m.table_size ≤ 4 * m.element_count then rehash hk m else m
    let new_node : Node K V := ⟨m1.next_id, k, v⟩
    ({ order := m1.order ++ [new_node]
       buckets := chainStep hk m1.table_size m1.buckets new_node
       element_count := m1.element_count + 1
       next_id := m1.next_id + 1 },
     (some new_node.id, true))

/-- insertAll: fold insert over a list of key/value pairs, keeping states. -/
def insertAll (hk : K → Nat) (m : linked_hashmap K V) (kvs : List (K × V)) :
    linked_hashmap K V :=
  kvs.foldl (fun acc p => (insert hk acc p.1 p.2).1) m

/-- remove_from_hash followed by remove_from_list and delete: unlink the
node from the chain of bucket hash(node.key) % table_size, unlink it from
the order list and decrement the count.  Node ids are unique in any
well-formed map, so unlinking the node is removal of every node carrying
its id. -/
def removeNode (hk : K → Nat) (m : linked_hashmap K V) (n : Node K V) :
    linked_hashmap K V :=
  let index := hk n.key % m.table_size
  { order := m.order.filter (fun x => x.id ≠ n.id)
    buckets :=
      m.buckets.set index
        ((m.buckets.getD index []).filter (fun x => x.id ≠ n.id))
    element_count := m.element_count - 1
    next_id := m.next_id }

/-- A cursor: a Node pointer (none = nullptr) and the identity of the
owning container (none = nullptr).  The const_iterator class carries the
same two fields and identical stepping and dereference logic, so one
structure models both. -/
structure iterator where
  node : Option Nat
  map : Option Nat
deriving DecidableEq, Repr

/-- end(): iterator(nullptr, this). -/
def endIt (self : Nat) : iterator := ⟨none, some self⟩

/-- begin(): iterator(head, this). -/
def beginIt (m : linked_hashmap K V) (self : Nat) : iterator :=
  ⟨(m.order.head?).map (fun n => n.id), some self⟩

/-- The position of the node with the given id in the order list. -/
def idxOfId (m : linked_hashmap K V) (nid : Nat) : Option Nat :=
  m.order.findIdx? (fun n => n.id = nid)

/-- node->next of the node with the given id: the id of the following
node of the order list, none when the node is the tail. -/
def succId (m : linked_hashmap K V) (nid : Nat) : Option Nat :=
  match idxOfId m nid with
  | some i => (m.order.get? (i + 1)).map (fun n => n.id)
  | none => none

/-- node->prev of the node with the given id: the id of the preceding
node of the order list, none when the node is the head. -/
def predId (m : linked_hashmap K V) (nid : Nat) : Option Nat :=
  match idxOfId m nid with
  | some (i + 1) => (m.order.get? i).map (fun n => n.id)
  | some 0 => none
  | none => none

/-- map->tail as an id, none when the list is empty. -/
def tailId (m : linked_hashmap K V) : Option Nat :=
  (m.order.getLast?).map (fun n => n.id)

/-- operator++ (both forms step the state identically): throw
invalid_iterator when the node pointer or the map pointer is null,
otherwise move to node->next.  Returns (new cursor, threw). -/
def incIt (m : linked_hashmap K V) (it : iterator) : iterator × Bool :=
  match it.node, it.map with
  | some nid, some mp => (⟨succId m nid, some mp⟩, false)
  | _, _ => (it, true)

/-- operator-- (both forms): throw invalid_iterator when the map pointer
is null; otherwise move to node->prev, or to map->tail when the node
pointer is null (step back from past-the-end). -/
def decIt (m : linked_hashmap K V) (it : iterator) : iterator × Bool :=
  match it.map with
  | none => (it, true)
  | some mp =>
    match it.node with
    | some nid => (⟨predId m nid, some mp⟩, false)
    | none => (⟨tailId m, some mp⟩, false)

/-- operator*: throw invalid_iterator when the node pointer is null
(result none), otherwise the stored pair of the referenced node. -/
def derefIt (m : linked_hashmap K V) (it : iterator) : Option (K × V) :=
  match it.node with
  | none => none
  | some nid =>
    (m.order.find? (fun n => n.id = nid)).map (fun n => (n.key, n.data))

/-- operator->: returns nullptr (none) on a null node pointer instead of
throwing; otherwise a pointer to the stored pair. -/
def arrowIt (m : linked_hashmap K V) (it : iterator) :
    Option (K × V) :=
  match it.node with
  | none => none
  | some nid =>
    (m.order.find? (fun n => n.id = nid)).map (fun n => (n.key, n.data))

/-- erase(pos): throw invalid_iterator when pos.node is null or pos.map
differs from this container; otherwise unlink and delete the node.
Returns (state after the call, threw).  When the iterator holds a
non-null node id that no longer belongs to the container (a stale
iterator to an already deleted node), the C++ code dereferences a
dangling pointer, which is undefined behavior and in particular is not an
invalid_iterator throw; the model keeps the state in that branch. -/
def erase (hk : K → Nat) (m : linked_hashmap K V) (self : Nat)
    (it : iterator) : linked_hashmap K V × Bool :=
  if it.node.isNone ∨ it.map ≠ some self then (m, true)
  else
    match it.node with
    | some nid =>
      match m.order.find? (fun n => n.id = nid) with
      | some n => (removeNode hk m n, false)
      | none => (m, false)
    | none => (m, true)

/-- count(key): 1 when find_node succeeds, else 0. -/
def count (hk : K → Nat) (m : linked_hashmap K V) (k : K) : Nat :=
  match find_node hk m k with
  | some _ => 1
  | none => 0

/-- find(key): iterator to the matching node, or end(). -/
def find (hk : K → Nat) (m : linked_hashmap K V) (self : Nat) (k : K) :
    iterator :=
  match find_node hk m k with
  | some n => ⟨some n.id, some self⟩
  | none => endIt self

/-- at(key): the mapped value, none models the index_out_of_bound throw.
The method never modifies the container. -/
def at_ (hk : K → Nat) (m : linked_hashmap K V) (k : K) : Option V :=
  (find_node hk m k).map (fun n => n.data)

/-- operator[](key), the access-or-insert form: when the key is found,
return its value; otherwise insert (key, T()) and re-run find_node to
return the freshly stored value.  The V result is an Option because the
C++ dereferences the re-run find_node result; none would model that null
dereference (it never happens, see the operator theorem). -/
def index (hk : K → Nat) [Inhabited V] (m : linked_hashmap K V) (k : K) :
    linked_hashmap K V × Option V :=
  match find_node hk m k with
  | some n => (m, some n.data)
  | none =>
    let m2 := (insert hk m k (default : V)).1
    (m2, (find_node hk m2 k).map (fun n => n.data))

/-- size(): the element count. -/
def size (m : linked_hashmap K V) : Nat := m.element_count

/-- empty(): element_count == 0. -/
def emptyq (m : linked_hashmap K V) : Bool := m.element_count = 0

/-- clear(): delete every node, reset head, tail and the count, null every
bucket head; the table keeps its current size. -/
def clear (m : linked_hashmap K V) : linked_hashmap K V :=
  { order := [], buckets := List.replicate m.table_size []
    element_count := 0, next_id := m.next_id }

/-- The copy constructor: initialize_table(other.table_size), copy the
functors, then insert every pair traversing the order list of the source
head to tail. -/
def copy (hk : K → Nat) (src : linked_hashmap K V) : linked_hashmap K V :=
  src.order.foldl (fun acc n => (insert hk acc n.key n.data).1)
    (emptyWith K V src.table_size)

/-- operator=: return this unchanged on self assignment; otherwise clear,
drop the table, initialize at the table size of the source and re-insert
every pair of the source in order (the same loop as the copy
constructor). -/
def assign (hk : K → Nat) (dst src : linked_hashmap K V)
    (selfAssign : Bool) : linked_hashmap K V :=
  if selfAssign then dst else copy hk src

/-- The observable content of the map: key/value pairs in iteration
order. -/
def entries (m : linked_hashmap K V) : List (K × V) :=
  m.order.map (fun n => (n.key, n.data))

/-- The keys in iteration order. -/
def keys (m : linked_hashmap K V) : List K :=
  m.order.map (fun n => n.key)

/-- A node id is live when a node of the order list carries it. -/
def live (m : linked_hashmap K V) (nid : Nat) : Bool :=
  m.order.any (fun n => n.id = nid)

/-- Every node of every chain of a table with sz buckets sits in the
bucket selected by the hash of its key. -/
def placedTbl (hk : K → Nat) (sz : Nat)
    (tbl : List (List (Node K V))) : Prop :=
  ∀ i, i < sz → ∀ n ∈ tbl.getD i [], hk n.key % sz = i

/-- Well-formedness of a container state, maintained by every operation:
the table is nonempty and a multiple of 4 buckets wide; every chained
node sits in the bucket selected by its hash; the bucket chains hold
exactly the nodes of the order list; keys and node ids are unique; ids
are below the allocator mark; the count matches the list; and the load
invariant 4 * count at most 3 * table_size holds. -/
def WF (hk : K → Nat) (m : linked_hashmap K V) : Prop :=
  0 < m.table_size ∧
  4 ∣ m.table_size ∧
  placedTbl hk m.table_size m.buckets ∧
  m.buckets.flatten.Perm m.order ∧
  (m.order.map (fun n => n.key)).Nodup ∧
  (m.order.map (fun n => n.id)).Nodup ∧
  (∀ n ∈ m.order, n.id < m.next_id) ∧
  m.element_count = m.order.length ∧
  4 * m.element_count ≤ 3 * m.table_size

/-- States reachable through the public interface from a fresh map. -/
inductive Reachable (hk : K → Nat) : linked_hashmap K V → Prop where
  | base : Reachable hk (mkmap K V)
  | ins (m : linked_hashmap K V) (k : K) (v : V) :
      Reachable hk m → Reachable hk (insert hk m k v).1
  | ers (m : linked_hashmap K V) (n : Node K V) :
      Reachable hk m → n ∈ m.order → Reachable hk (removeNode hk m n)
  | clr (m : linked_hashmap K V) :
      Reachable hk m → Reachable hk (clear m)

end linked_hashmap

/-! Helper lemmas about bucket tables. -/

theorem getD_mem_flatten {α : Type} {tbl : List (List α)} {i : Nat} {x : α}
    (hx : x ∈ tbl.getD i []) : x ∈ tbl.flatten := by
  by_cases hi : i < tbl.length
  · rw [List.getD_eq_getElem?_getD, List.getElem?_eq_getElem hi] at hx
    exact List.mem_flatten.2 ⟨tbl[i], List.getElem_mem hi, hx⟩
  · rw [List.getD_eq_getElem?_getD, List.getElem?_eq_none (le_of_not_lt hi)]
      at hx
    simp at hx

theorem flatten_replicate_nil {α : Type} (n : Nat) :
    (List.replicate n ([] : List α)).flatten = [] := by
  induction n with
  | zero => rfl
  | succ k ih => simp [List.replicate_succ, ih]

theorem getD_replicate_nil {α : Type} (n i : Nat) :
    (List.replicate n ([] : List α)).getD i [] = [] := by
  rw [List.getD_eq_getElem?_getD, List.getElem?_replicate]
  by_cases h : i < n <;> simp [h]

theorem flatten_set_cons {α : Type} (tbl : List (List α)) (i : Nat)
    (hi : i < tbl.length) (a : α) :
    ((tbl.set i (a :: tbl.getD i [])).flatten).Perm (a :: tbl.flatten) := by
  induction tbl generalizing i with
  | nil => simp at hi
  | cons c cs ih =>
    cases i with
    | zero => simp
    | succ j =>
      have hj : j < cs.length := Nat.lt_of_succ_lt_succ hi
      have e1 : ((c :: cs).set (j + 1) (a :: (c :: cs).getD (j + 1) [])).flatten
          = c ++ (cs.set j (a :: cs.getD j [])).flatten := by simp
      have e2 : (c ++ (cs.set j (a :: cs.getD j [])).flatten).Perm
          (c ++ (a :: cs.flatten)) := (ih j hj).append_left c
      have e3 : (c ++ (a :: cs.flatten)).Perm (a :: (c ++ cs.flatten)) :=
        List.perm_middle
      rw [e1]
      exact e2.trans e3

theorem getD_set_self {α : Type} (tbl : List (List α)) (i : Nat)
    (hi : i < tbl.length) (c : List α) :
    (tbl.set i c).getD i [] = c := by
  rw [List.getD_eq_getElem?_getD, List.getElem?_set]
  simp [hi]

theorem getD_set_ne {α : Type} (tbl : List (List α)) (i j : Nat)
    (hij : i ≠ j) (c : List α) :
    (tbl.set i c).getD j [] = tbl.getD j [] := by
  rw [List.getD_eq_getElem?_getD, List.getElem?_set, if_neg hij,
    List.getD_eq_getElem?_getD]

namespace linked_hashmap

variable {K V : Type} [DecidableEq K]

theorem chainStep_length (hk : K → Nat) (sz : Nat)
    (tbl : List (List (Node K V))) (n : Node K V) :
    (chainStep hk sz tbl n).length = tbl.length := by
  simp [chainStep]

theorem chainStep_flatten (hk : K → Nat) (sz : Nat) (hsz : 0 < sz)
    (tbl : List (List (Node K V))) (hlen : tbl.length = sz)
    (n : Node K V) :
    ((chainStep hk sz tbl n).flatten).Perm (n :: tbl.flatten) := by
  have hi : hk n.key % sz < tbl.length := by
    rw [hlen]; exact Nat.mod_lt _ hsz
  exact flatten_set_cons tbl _ hi n

theorem chainStep_placed (hk : K → Nat) (sz : Nat) (hsz : 0 < sz)
    (tbl : List (List (Node K V))) (hlen : tbl.length = sz)
    (hp : placedTbl hk sz tbl) (n : Node K V) :
    placedTbl hk sz (chainStep hk sz tbl n) := by
  intro i hi x hx
  have hlt : hk n.key % sz < tbl.length := by
    rw [hlen]; exact Nat.mod_lt _ hsz
  by_cases hcase : hk n.key % sz = i
  · subst hcase
    rw [chainStep, getD_set_self tbl _ hlt] at hx
    rcases List.mem_cons.1 hx with hx | hx
    · subst hx; rfl
    · exact hp _ hi x hx
  · rw [chainStep, getD_set_ne tbl _ _ hcase] at hx
    exact hp _ hi x hx

theorem distribute_aux (hk : K → Nat) (sz : Nat) (hsz : 0 < sz)
    (l : List (Node K V)) :
    ∀ tbl : List (List (Node K V)), tbl.length = sz →
      placedTbl hk sz tbl →
      (l.foldl (chainStep hk sz) tbl).length = sz ∧
      ((l.foldl (chainStep hk sz) tbl).flatten).Perm (l ++ tbl.flatten) ∧
      placedTbl hk sz (l.foldl (chainStep hk sz) tbl) := by
  induction l with
  | nil => intro tbl hlen hp; exact ⟨hlen, by simp, hp⟩
  | cons n rest ih =>
    intro tbl hlen hp
    have hlen1 : (chainStep hk sz tbl n).length = sz := by
      rw [chainStep_length, hlen]
    have hp1 := chainStep_placed hk sz hsz tbl hlen hp n
    obtain ⟨h1, h2, h3⟩ := ih (chainStep hk sz tbl n) hlen1 hp1
    refine ⟨h1, ?_, h3⟩
    have e2 : (rest ++ (chainStep hk sz tbl n).flatten).Perm
        (rest ++ (n :: tbl.flatten)) :=
      (chainStep_flatten hk sz hsz tbl hlen n).append_left rest
    have e3 : (rest ++ (n :: tbl.flatten)).Perm (n :: (rest ++ tbl.flatten)) :=
      List.perm_middle
    exact h2.trans (e2.trans e3)

theorem distribute_length (hk : K → Nat) (sz : Nat) (hsz : 0 < sz)
    (l : List (Node K V)) : (distribute hk sz l).length = sz := by
  have hp : placedTbl hk sz (List.replicate sz ([] : List (Node K V))) := by
    intro i hi n hn
    rw [getD_replicate_nil] at hn
    simp at hn
  exact (distribute_aux hk sz hsz l _ (by simp) hp).1

theorem distribute_spec (hk : K → Nat) (sz : Nat) (hsz : 0 < sz)
    (l : List (Node K V)) :
    ((distribute hk sz l).flatten).Perm l ∧
      placedTbl hk sz (distribute hk sz l) := by
  have hp : placedTbl hk sz (List.replicate sz ([] : List (Node K V))) := by
    intro i hi n hn
    rw [getD_replicate_nil] at hn
    simp at hn
  obtain ⟨_, h2, h3⟩ := distribute_aux hk sz hsz l _ (by simp) hp
  refine ⟨?_, h3⟩
  have := h2
  rwa [flatten_replicate_nil, List.append_nil] at this

/-! Generic find? on a list with an injective projection. -/

theorem find?_proj_eq {α β : Type} [DecidableEq β] {f : α → β} {l : List α}
    (hnd : (l.map f).Nodup) {a : α} (ha : a ∈ l) :
    l.find? (fun x => f x = f a) = some a := by
  have hsome : (l.find? (fun x => f x = f a)).isSome := by
    rw [List.find?_isSome]
    exact ⟨a, ha, by simp⟩
  obtain ⟨b, hb⟩ := Option.isSome_iff_exists.1 hsome
  have hfb : f b = f a := by
    have := List.find?_some hb
    simpa using this
  have hbm : b ∈ l := List.mem_of_find?_eq_some hb
  rw [hb, List.inj_on_of_nodup_map hnd hbm ha hfb]

/-! Accessors for the well-formedness conjunction. -/

theorem WF.ts_pos {hk : K → Nat} {m : linked_hashmap K V} (h : WF hk m) :
    0 < m.table_size := h.1

theorem WF.ts_dvd {hk : K → Nat} {m : linked_hashmap K V} (h : WF hk m) :
    4 ∣ m.table_size := h.2.1

theorem WF.placed {hk : K → Nat} {m : linked_hashmap K V} (h : WF hk m) :
    placedTbl hk m.table_size m.buckets := h.2.2.1

theorem WF.perm {hk : K → Nat} {m : linked_hashmap K V} (h : WF hk m) :
    m.buckets.flatten.Perm m.order := h.2.2.2.1

theorem WF.keys_nodup {hk : K → Nat} {m : linked_hashmap K V} (h : WF hk m) :
    (m.order.map (fun n => n.key)).Nodup := h.2.2.2.2.1

theorem WF.ids_nodup {hk : K → Nat} {m : linked_hashmap K V} (h : WF hk m) :
    (m.order.map (fun n => n.id)).Nodup := h.2.2.2.2.2.1

theorem WF.ids_lt {hk : K → Nat} {m : linked_hashmap K V} (h : WF hk m) :
    ∀ n ∈ m.order, n.id < m.next_id := h.2.2.2.2.2.2.1

theorem WF.count_eq {hk : K → Nat} {m : linked_hashmap K V} (h : WF hk m) :
    m.element_count = m.order.length := h.2.2.2.2.2.2.2.1

theorem WF.load {hk : K → Nat} {m : linked_hashmap K V} (h : WF hk m) :
    4 * m.element_count ≤ 3 * m.table_size := h.2.2.2.2.2.2.2.2

/-! find_node against the order list. -/

theorem find_node_sound {hk : K → Nat} {m : linked_hashmap K V}
    (hwf : WF hk m) {k : K} {n : Node K V}
    (h : find_node hk m k = some n) : n ∈ m.order ∧ n.key = k := by
  have hkey : n.key = k := by
    have := List.find?_some h
    simpa using this
  have hmem : n ∈ m.buckets.getD (hk k % m.table_size) [] :=
    List.mem_of_find?_eq_some h
  exact ⟨hwf.perm.mem_iff.1 (getD_mem_flatten hmem), hkey⟩

theorem find_node_complete {hk : K → Nat} {m : linked_hashmap K V}
    (hwf : WF hk m) {n : Node K V} (hn : n ∈ m.order) :
    find_node hk m n.key = some n := by
  have hflat : n ∈ m.buckets.flatten := hwf.perm.mem_iff.2 hn
  obtain ⟨c, hc, hnc⟩ := List.mem_flatten.1 hflat
  obtain ⟨i, hi, hci⟩ := List.mem_iff_getElem.1 hc
  have hgetD : m.buckets.getD i [] = c := by
    rw [List.getD_eq_getElem?_getD, List.getElem?_eq_getElem hi, hci]
    rfl
  have hidx : hk n.key % m.table_size = i :=
    hwf.placed i hi n (by rw [hgetD]; exact hnc)
  rw [find_node, hidx, hgetD]
  have hsome : (c.find? (fun x => x.key = n.key)).isSome := by
    rw [List.find?_isSome]
    exact ⟨n, hnc, by simp⟩
  obtain ⟨b, hb⟩ := Option.isSome_iff_exists.1 hsome
  have hfb : b.key = n.key := by
    have := List.find?_some hb
    simpa using this
  have hbc : b ∈ m.buckets.getD i [] := by
    rw [hgetD]
    exact List.mem_of_find?_eq_some hb
  have hbm : b ∈ m.order := hwf.perm.mem_iff.1 (getD_mem_flatten hbc)
  rw [hb, List.inj_on_of_nodup_map hwf.keys_nodup hbm hn hfb]

theorem find_node_none_iff {hk : K → Nat} {m : linked_hashmap K V}
    (hwf : WF hk m) {k : K} :
    find_node hk m k = none ↔ k ∉ keys m := by
  constructor
  · intro hnone hkmem
    obtain ⟨n, hn, hkey⟩ := List.mem_map.1 hkmem
    have := find_node_complete hwf hn
    rw [hkey, hnone] at this
    simp at this
  · intro habs
    cases h : find_node hk m k with
    | none => rfl
    | some n =>
      obtain ⟨hn, hkey⟩ := find_node_sound hwf h
      exact absurd (List.mem_map.2 ⟨n, hn, hkey⟩) habs

/-! Well-formedness of the constructors, clear and rehash. -/

theorem table_size_emptyWith (c : Nat) :
    (emptyWith K V c).table_size = c := by
  simp [table_size, emptyWith, initialize_table]

theorem WF_emptyWith (hk : K → Nat) (c : Nat) (hc0 : 0 < c)
    (hc4 : 4 ∣ c) : WF hk (emptyWith K V c) := by
  have hts : (emptyWith K V c).table_size = c := table_size_emptyWith c
  refine ⟨by rw [hts]; exact hc0, by rw [hts]; exact hc4, ?_, ?_, ?_, ?_, ?_, ?_, ?_⟩
  · intro i hi n hn
    rw [show (emptyWith K V c).buckets = List.replicate c [] from rfl,
      getD_replicate_nil] at hn
    simp at hn
  · rw [show (emptyWith K V c).buckets = List.replicate c [] from rfl,
      flatten_replicate_nil]
    exact List.Perm.refl _
  · simp [emptyWith]
  · simp [emptyWith]
  · intro n hn; simp [emptyWith] at hn
  · simp [emptyWith]
  · simp [emptyWith]

theorem WF_mkmap (hk : K → Nat) : WF hk (mkmap K V) :=
  WF_emptyWith hk 16 (by norm_num) (by norm_num)

theorem table_size_clear (m : linked_hashmap K V) :
    (clear m).table_size = m.table_size := by
  simp [table_size, clear]

theorem WF_clear {hk : K → Nat} {m : linked_hashmap K V} (hwf : WF hk m) :
    WF hk (clear m) := by
  have hts := table_size_clear m
  refine ⟨by rw [hts]; exact hwf.ts_pos, by rw [hts]; exact hwf.ts_dvd,
    ?_, ?_, ?_, ?_, ?_, ?_, ?_⟩
  · intro i hi n hn
    rw [show (clear m).buckets = List.replicate m.table_size [] from rfl,
      getD_replicate_nil] at hn
    simp at hn
  · rw [show (clear m).buckets = List.replicate m.table_size [] from rfl,
      flatten_replicate_nil]
    exact List.Perm.refl _
  · simp [clear]
  · simp [clear]
  · intro n hn; simp [clear] at hn
  · simp [clear]
  · simp [clear]

theorem table_size_rehash {hk : K → Nat} {m : linked_hashmap K V}
    (hwf : WF hk m) :
    (rehash hk m).table_size = m.table_size * 2 := by
  have h2 : 0 < m.table_size * 2 := by
    have := hwf.ts_pos
    omega
  simpa [table_size, rehash] using distribute_length hk _ h2 m.order

theorem order_rehash (hk : K → Nat) (m : linked_hashmap K V) :
    (rehash hk m).order = m.order := rfl

theorem WF_rehash {hk : K → Nat} {m : linked_hashmap K V} (hwf : WF hk m) :
    WF hk (rehash hk m) := by
  have h2 : 0 < m.table_size * 2 := by
    have := hwf.ts_pos
    omega
  have hts := table_size_rehash hwf
  obtain ⟨hflat, hplaced⟩ := distribute_spec hk (m.table_size * 2) h2 m.order
  refine ⟨?_, ?_, ?_, ?_, hwf.keys_nodup, hwf.ids_nodup, hwf.ids_lt, ?_, ?_⟩
  · rw [hts]; exact h2
  · rw [hts]; exact Dvd.dvd.mul_right hwf.ts_dvd 2
  · rw [hts]; exact hplaced
  · exact hflat
  · exact hwf.count_eq
  · rw [hts, show (rehash hk m).element_count = m.element_count from rfl]
    have := hwf.load
    omega

/-! Behavior of insert. -/

theorem insert_of_found {hk : K → Nat} {m : linked_hashmap K V} {k : K}
    {n : Node K V} (h : find_node hk m k = some n) (v : V) :
    insert hk m k v = (m, (some n.id, false)) := by
  simp [insert, h]

theorem keys_eq_entries_fst (m : linked_hashmap K V) :
    keys m = (entries m).map Prod.fst := by
  simp [keys, entries]

theorem ts_pos_of_WF_insert_aux {hk : K → Nat} {m : linked_hashmap K V}
    (hwf : WF hk m) : 4 ≤ m.table_size := by
  obtain ⟨t, ht⟩ := hwf.ts_dvd
  have := hwf.ts_pos
  omega

theorem WF_push {hk : K → Nat} {m1 : linked_hashmap K V}
    (hwf1 : WF hk m1) {k : K} (habs : k ∉ keys m1) (v : V)
    (hload : 4 * (m1.element_count + 1) ≤ 3 * m1.table_size) :
    WF hk ({ order := m1.order ++ [⟨m1.next_id, k, v⟩]
             buckets := chainStep hk m1.table_size m1.buckets
               ⟨m1.next_id, k, v⟩
             element_count := m1.element_count + 1
             next_id := m1.next_id + 1 } : linked_hashmap K V) := by
  have hlen : m1.buckets.length = m1.table_size := rfl
  have hts : (chainStep hk m1.table_size m1.buckets
      (⟨m1.next_id, k, v⟩ : Node K V)).length = m1.table_size := by
    rw [chainStep_length, hlen]
  refine ⟨?_, ?_, ?_, ?_, ?_, ?_, ?_, ?_, ?_⟩
  · show 0 < (chainStep hk m1.table_size m1.buckets _).length
    rw [hts]; exact hwf1.ts_pos
  · show 4 ∣ (chainStep hk m1.table_size m1.buckets _).length
    rw [hts]; exact hwf1.ts_dvd
  · show placedTbl hk (chainStep hk m1.table_size m1.buckets _).length _
    rw [hts]
    exact chainStep_placed hk _ hwf1.ts_pos m1.buckets hlen hwf1.placed _
  · exact (chainStep_flatten hk _ hwf1.ts_pos m1.buckets hlen _).trans
      ((hwf1.perm.cons _).trans
        (List.perm_append_singleton _ m1.order).symm)
  · have he : ((m1.order ++ [(⟨m1.next_id, k, v⟩ : Node K V)]).map
        (fun n => n.key)) = m1.order.map (fun n => n.key) ++ [k] := by simp
    rw [he, (List.perm_append_singleton _ _).nodup_iff, List.nodup_cons]
    exact ⟨habs, hwf1.keys_nodup⟩
  · have he : ((m1.order ++ [(⟨m1.next_id, k, v⟩ : Node K V)]).map
        (fun n => n.id)) = m1.order.map (fun n => n.id) ++ [m1.next_id] := by
      simp
    rw [he, (List.perm_append_singleton _ _).nodup_iff, List.nodup_cons]
    refine ⟨?_, hwf1.ids_nodup⟩
    intro hmem
    obtain ⟨x, hx, hxid⟩ := List.mem_map.1 hmem
    exact absurd hxid (Nat.ne_of_lt (hwf1.ids_lt x hx))
  · intro x hx
    rcases List.mem_append.1 hx with hx | hx
    · exact Nat.lt_succ_of_lt (hwf1.ids_lt x hx)
    · rw [List.mem_singleton.1 hx]
      exact Nat.lt_succ_self _
  · simp [hwf1.count_eq]
  · show 4 * (m1.element_count + 1) ≤
      3 * (chainStep hk m1.table_size m1.buckets _).length
    rw [hts]
    exact hload

theorem WF_insert {hk : K → Nat} {m : linked_hashmap K V}
    (hwf : WF hk m) (k : K) (v : V) : WF hk (insert hk m k v).1 := by
  cases hfn : find_node hk m k with
  | some n =>
    rw [insert_of_found hfn v]
    exact hwf
  | none =>
    have habs : k ∉ keys m := (find_node_none_iff hwf).1 hfn
    simp only [insert, hfn]
    by_cases htrig : 3 * m.table_size ≤ 4 * m.element_count
    · simp only [if_pos htrig]
      have hwf1 : WF hk (rehash hk m) := WF_rehash hwf
      have habs1 : k ∉ keys (rehash hk m) := habs
      refine WF_push hwf1 habs1 v ?_
      rw [table_size_rehash hwf,
        show (rehash hk m).element_count = m.element_count from rfl]
      have h4 := ts_pos_of_WF_insert_aux hwf
      have := hwf.load
      omega
    · simp only [if_neg htrig]
      refine WF_push hwf habs v ?_
      obtain ⟨t, ht⟩ := hwf.ts_dvd
      omega

theorem insert_absent_spec {hk : K → Nat} {m : linked_hashmap K V}
    (hwf : WF hk m) {k : K} (habs : k ∉ keys m) (v : V) :
    entries (insert hk m k v).1 = entries m ++ [(k, v)] ∧
    (insert hk m k v).2.2 = true ∧
    (insert hk m k v).1.element_count = m.element_count + 1 ∧
    ((insert hk m k v).1.table_size = m.table_size ∨
      (insert hk m k v).1.table_size = m.table_size * 2) ∧
    (4 * m.element_count < 3 * m.table_size →
      (insert hk m k v).1.table_size = m.table_size) := by
  have hfn : find_node hk m k = none := (find_node_none_iff hwf).2 habs
  simp only [insert, hfn]
  by_cases htrig : 3 * m.table_size ≤ 4 * m.element_count
  · simp only [if_pos htrig]
    refine ⟨?_, by trivial, by trivial, ?_, ?_⟩
    · simp [entries, rehash]
    · right
      show (chainStep hk (rehash hk m).table_size (rehash hk m).buckets
        _).length = m.table_size * 2
      rw [chainStep_length]
      exact table_size_rehash hwf
    · intro hlt
      omega
  · simp only [if_neg htrig]
    refine ⟨?_, by trivial, by trivial, ?_, ?_⟩
    · simp [entries]
    · left
      show (chainStep hk m.table_size m.buckets _).length = m.table_size
      rw [chainStep_length]
      rfl
    · intro _
      show (chainStep hk m.table_size m.buckets _).length = m.table_size
      rw [chainStep_length]
      rfl

theorem keys_insert_absent {hk : K → Nat} {m : linked_hashmap K V}
    (hwf : WF hk m) {k : K} (habs : k ∉ keys m) (v : V) :
    keys (insert hk m k v).1 = keys m ++ [k] := by
  have h := (insert_absent_spec hwf habs v).1
  rw [keys_eq_entries_fst, h, keys_eq_entries_fst]
  simp

/-! Folding insert over a list of pairs with fresh distinct keys. -/

theorem insertAll_spec (hk : K → Nat) (kvs : List (K × V)) :
    ∀ m : linked_hashmap K V, WF hk m →
      (∀ p ∈ kvs, p.1 ∉ keys m) → (kvs.map Prod.fst).Nodup →
      WF hk (insertAll hk m kvs) ∧
      entries (insertAll hk m kvs) = entries m ++ kvs ∧
      m.table_size ≤ (insertAll hk m kvs).table_size ∧
      (4 * (m.element_count + kvs.length) ≤ 3 * m.table_size →
        (insertAll hk m kvs).table_size = m.table_size) := by
  induction kvs with
  | nil =>
    intro m hwf _ _
    exact ⟨hwf, by simp [insertAll, entries], le_refl _, fun _ => rfl⟩
  | cons p rest ih =>
    intro m hwf habs hnd
    have habsp : p.1 ∉ keys m := habs p (List.mem_cons_self p rest)
    obtain ⟨hent1, _, hec1, hts1, hts1eq⟩ :=
      insert_absent_spec hwf habsp p.2
    have hwf1 : WF hk (insert hk m p.1 p.2).1 := WF_insert hwf p.1 p.2
    have hkeys1 : keys (insert hk m p.1 p.2).1 = keys m ++ [p.1] :=
      keys_insert_absent hwf habsp p.2
    have habs1 : ∀ q ∈ rest, q.1 ∉ keys (insert hk m p.1 p.2).1 := by
      intro q hq hqmem
      rw [hkeys1] at hqmem
      rcases List.mem_append.1 hqmem with hmem | hmem
      · exact habs q (List.mem_cons_of_mem p hq) hmem
      · have hq1 : q.1 = p.1 := List.mem_singleton.1 hmem
        have : p.1 ∈ rest.map Prod.fst := List.mem_map.2 ⟨q, hq, hq1⟩
        have hndc : (p.1 :: rest.map Prod.fst).Nodup := by
          rw [List.map_cons] at hnd
          exact hnd
        exact (List.nodup_cons.1 hndc).1 this
    have hnd1 : (rest.map Prod.fst).Nodup := by
      rw [List.map_cons] at hnd
      exact (List.nodup_cons.1 hnd).2
    obtain ⟨ih1, ih2, ih3, ih4⟩ :=
      ih (insert hk m p.1 p.2).1 hwf1 habs1 hnd1
    have hall : insertAll hk m (p :: rest) =
        insertAll hk (insert hk m p.1 p.2).1 rest := rfl
    refine ⟨by rw [hall]; exact ih1, ?_, ?_, ?_⟩
    · rw [hall, ih2, hent1]
      simp
    · rw [hall]
      rcases hts1 with h | h
      · rw [← h]; exact ih3
      · refine le_trans ?_ ih3
        rw [h]
        have := hwf.ts_pos
        omega
    · intro hload
      have hlt : 4 * m.element_count < 3 * m.table_size := by
        have : rest.length + 1 = (p :: rest).length := by simp
        omega
      have hts : (insert hk m p.1 p.2).1.table_size = m.table_size :=
        hts1eq hlt
      rw [hall, ih4 ?_, hts]
      rw [hec1, hts]
      have hlen : (p :: rest).length = rest.length + 1 := rfl
      omega

/-! Behavior of removeNode (the unlink steps of erase). -/

theorem flatten_set_filter {α : Type} (tbl : List (List α)) (i : Nat)
    (hi : i < tbl.length) (p : α → Bool)
    (hothers : ∀ j, j < tbl.length → j ≠ i →
      ∀ x ∈ tbl.getD j [], p x = true) :
    ((tbl.set i ((tbl.getD i []).filter p)).flatten).Perm
      (tbl.flatten.filter p) := by
  induction tbl generalizing i with
  | nil => simp at hi
  | cons c cs ih =>
    cases i with
    | zero =>
      have hcs : cs.flatten.filter p = cs.flatten := by
        rw [List.filter_eq_self]
        intro x hx
        obtain ⟨d, hd, hxd⟩ := List.mem_flatten.1 hx
        obtain ⟨j, hj, hdj⟩ := List.mem_iff_getElem.1 hd
        have hgd : (c :: cs).getD (j + 1) [] = d := by
          rw [List.getD_cons_succ, List.getD_eq_getElem?_getD,
            List.getElem?_eq_getElem hj, hdj]
          rfl
        exact hothers (j + 1) (by simpa using Nat.succ_lt_succ hj)
          (Nat.succ_ne_zero j) x (by rw [hgd]; exact hxd)
      simp only [List.set_cons_zero, List.getD_cons_zero, List.flatten_cons,
        List.filter_append, hcs]
      exact List.Perm.refl _
    | succ j =>
      have hj : j < cs.length := Nat.lt_of_succ_lt_succ hi
      have hc : c.filter p = c := by
        rw [List.filter_eq_self]
        intro x hx
        exact hothers 0 (Nat.succ_pos _) (Nat.succ_ne_zero j).symm x
          (by rw [List.getD_cons_zero]; exact hx)
      have hoth2 : ∀ j2, j2 < cs.length → j2 ≠ j →
          ∀ x ∈ cs.getD j2 [], p x = true := by
        intro j2 hj2 hne x hx
        exact hothers (j2 + 1) (by simpa using Nat.succ_lt_succ hj2)
          (by omega) x (by rw [List.getD_cons_succ]; exact hx)
      have step := (ih j hj hoth2).append_left c
      simp only [List.set_cons_succ, List.getD_cons_succ, List.flatten_cons,
        List.filter_append, hc]
      exact step

theorem length_filter_ne {α β : Type} [DecidableEq β] (f : α → β)
    (l : List α) (hnd : (l.map f).Nodup) {a : α} (ha : a ∈ l) :
    (l.filter (fun x => f x ≠ f a)).length + 1 = l.length := by
  induction l with
  | nil => cases ha
  | cons b bs ih =>
    rw [List.map_cons, List.nodup_cons] at hnd
    rcases List.mem_cons.1 ha with rfl | hmem
    · have hbs : bs.filter (fun x => f x ≠ f a) = bs := by
        rw [List.filter_eq_self]
        intro x hx
        have hne2 : f x ≠ f a := by
          intro h
          exact hnd.1 (h ▸ List.mem_map_of_mem f hx)
        simp [hne2]
      rw [List.filter_cons, if_neg (by simp), hbs, List.length_cons]
    · have hfb : f b ≠ f a := by
        intro h
        exact hnd.1 (h ▸ List.mem_map_of_mem f hmem)
      have hkeep : (decide (f b ≠ f a)) = true := by simp [hfb]
      rw [List.filter_cons, if_pos hkeep, List.length_cons, ih hnd.2 hmem]
      rfl

theorem removeNode_spec {hk : K → Nat} {m : linked_hashmap K V}
    (hwf : WF hk m) {n : Node K V} (hn : n ∈ m.order) :
    WF hk (removeNode hk m n) ∧
    (removeNode hk m n).order = m.order.filter (fun x => x.id ≠ n.id) ∧
    (removeNode hk m n).element_count + 1 = m.element_count ∧
    (removeNode hk m n).table_size = m.table_size ∧
    n.key ∉ keys (removeNode hk m n) ∧
    entries (removeNode hk m n) =
      (entries m).filter (fun p => p.1 ≠ n.key) := by
  have hts : (removeNode hk m n).table_size = m.table_size := by
    simp [removeNode, table_size]
  have hidx : hk n.key % m.table_size < m.buckets.length :=
    Nat.mod_lt _ hwf.ts_pos
  have horder : (removeNode hk m n).order =
      m.order.filter (fun x => x.id ≠ n.id) := rfl
  have hlen : m.order.length = m.element_count := hwf.count_eq.symm
  have hpos : 0 < m.order.length := List.length_pos_of_mem hn
  have hlenf : (m.order.filter (fun x => x.id ≠ n.id)).length + 1 =
      m.order.length :=
    length_filter_ne (fun x => x.id) m.order hwf.ids_nodup hn
  have hcount : (removeNode hk m n).element_count + 1 = m.element_count := by
    show m.element_count - 1 + 1 = m.element_count
    omega
  -- every other bucket chain carries no node with the id of n
  have hothers : ∀ j, j < m.buckets.length → j ≠ hk n.key % m.table_size →
      ∀ x ∈ m.buckets.getD j [], (decide (x.id ≠ n.id)) = true := by
    intro j hj hne x hx
    have hxo : x ∈ m.order := hwf.perm.mem_iff.1 (getD_mem_flatten hx)
    by_cases hxn : x.id = n.id
    · exfalso
      have hxeq : x = n :=
        List.inj_on_of_nodup_map hwf.ids_nodup hxo hn hxn
      subst hxeq
      exact hne (hwf.placed j hj x hx).symm
    · simp [hxn]
  have hflat : ((removeNode hk m n).buckets.flatten).Perm
      ((removeNode hk m n).order) := by
    rw [horder]
    refine (flatten_set_filter m.buckets _ hidx _ hothers).trans ?_
    exact hwf.perm.filter _
  have hsub : (m.order.filter (fun x => x.id ≠ n.id)).Sublist m.order :=
    List.filter_sublist _
  refine ⟨⟨?_, ?_, ?_, hflat, ?_, ?_, ?_, ?_, ?_⟩,
    horder, hcount, hts, ?_, ?_⟩
  · rw [hts]; exact hwf.ts_pos
  · rw [hts]; exact hwf.ts_dvd
  · -- placement in the filtered table
    rw [hts]
    intro i hi x hx
    have hi2 : i < m.buckets.length := hi
    by_cases hcase : i = hk n.key % m.table_size
    · subst hcase
      rw [show (removeNode hk m n).buckets =
          m.buckets.set (hk n.key % m.table_size)
            ((m.buckets.getD (hk n.key % m.table_size) []).filter
              (fun x => x.id ≠ n.id)) from rfl,
        getD_set_self _ _ hidx] at hx
      exact hwf.placed _ hi2 x (List.mem_filter.1 hx).1
    · rw [show (removeNode hk m n).buckets =
          m.buckets.set (hk n.key % m.table_size)
            ((m.buckets.getD (hk n.key % m.table_size) []).filter
              (fun x => x.id ≠ n.id)) from rfl,
        getD_set_ne _ _ _ (fun h => hcase h.symm)] at hx
      exact hwf.placed _ hi2 x hx
  · rw [horder]
    exact List.Nodup.sublist (hsub.map _) hwf.keys_nodup
  · rw [horder]
    exact List.Nodup.sublist (hsub.map _) hwf.ids_nodup
  · rw [horder]
    intro x hx
    exact hwf.ids_lt x (List.mem_filter.1 hx).1
  · show m.element_count - 1 = (m.order.filter (fun x => x.id ≠ n.id)).length
    omega
  · rw [hts]
    show 4 * (m.element_count - 1) ≤ 3 * m.table_size
    have := hwf.load
    omega
  · -- the key of n is gone
    rw [keys, horder]
    intro hmem
    obtain ⟨x, hx, hxkey⟩ := List.mem_map.1 hmem
    obtain ⟨hxo, hxid⟩ := List.mem_filter.1 hx
    have hxeq : x = n :=
      List.inj_on_of_nodup_map hwf.keys_nodup hxo hn hxkey
    subst hxeq
    simp at hxid
  · -- entries = key-filtered entries
    rw [entries, horder, entries, List.filter_map]
    congr 1
    refine List.filter_congr ?_
    intro x hx
    show decide (x.id ≠ n.id) = decide (x.key ≠ n.key)
    rw [decide_eq_decide]
    constructor
    · intro hid hkey
      exact hid (congrArg Node.id
        (List.inj_on_of_nodup_map hwf.keys_nodup hx hn hkey))
    · intro hkey hid
      exact hkey (congrArg Node.key
        (List.inj_on_of_nodup_map hwf.ids_nodup hx hn hid))

/-- Every state reachable through the public interface is well formed. -/
theorem WF_of_reachable {hk : K → Nat} {m : linked_hashmap K V}
    (h : Reachable hk m) : WF hk m := by
  induction h with
  | base => exact WF_mkmap hk
  | ins m k v _ ih => exact WF_insert ih k v
  | ers m n _ hn ih => exact (removeNode_spec ih hn).1
  | clr m _ ih => exact WF_clear ih

/-! Claim theorems. -/

/-- Claim C1: for every sequence of insertions with pairwise distinct keys
into a fresh container, iterating head to tail yields the keys in exactly
the insertion sequence, and rehash (capacity growth) never changes the
order list, hence never the iteration order. -/
theorem insertion_order_preserved (hk : K → Nat) (kvs : List (K × V))
    (hnd : (kvs.map Prod.fst).Nodup) :
    keys (insertAll hk (mkmap K V) kvs) = kvs.map Prod.fst ∧
    ∀ m : linked_hashmap K V, (rehash hk m).order = m.order := by
  have h := insertAll_spec hk kvs (mkmap K V) (WF_mkmap hk)
    (by intro p hp; simp [mkmap, keys]) hnd
  refine ⟨?_, fun m => rfl⟩
  rw [keys_eq_entries_fst, h.2.1]
  simp [entries, mkmap]

theorem insertion_order_preserved_witness :
    keys (insertAll (fun k => k) (mkmap Nat Nat) [(1, 10), (2, 20)]) =
      [1, 2] ∧
    (rehash (fun k => k) (mkmap Nat Nat)).order = (mkmap Nat Nat).order := by
  have h := insertion_order_preserved (fun k => k) [(1, 10), (2, 20)]
    (by decide)
  exact ⟨h.1, h.2 (mkmap Nat Nat)⟩

/-- Claim C3: inserting a key that is already present returns the pointer
to the existing node paired with false and leaves the container exactly
unchanged: same state, so same stored value, same iteration position,
same element count, same entries. -/
theorem reinsert_noop {hk : K → Nat} {m : linked_hashmap K V}
    (hwf : WF hk m) {n : Node K V} (hn : n ∈ m.order) (v : V) :
    insert hk m n.key v = (m, (some n.id, false)) :=
  insert_of_found (find_node_complete hwf hn) v

theorem reinsert_noop_witness :
    insert (fun k => k) ((insert (fun k => k) (mkmap Nat Nat) 1 10).1)
      (Node.mk 0 1 10).key 99 =
      ((insert (fun k => k) (mkmap Nat Nat) 1 10).1, (some 0, false)) := by
  have hwf : WF (fun k => k)
      ((insert (fun k => k) (mkmap Nat Nat) 1 10).1) :=
    WF_insert (WF_mkmap (fun k => k)) 1 10
  have hn : (Node.mk 0 1 10) ∈
      ((insert (fun k => k) (mkmap Nat Nat) 1 10).1).order := by decide
  exact reinsert_noop hwf hn 99

/-- Claim C6 counterexample: an iterator to an entry already removed (its
node id is no longer live) whose owning tag matches the container is not
rejected by erase: the call does not throw invalid_iterator, refuting
that erase fails exactly when the iterator does not reference a live
entry. -/
theorem erase_stale_undetected :
    ((erase (fun k => k)
        ((erase (fun k => k) ((insert (fun k => k) (mkmap Nat Nat) 5 7).1)
          0 ⟨some 0, some 0⟩).1) 0 ⟨some 0, some 0⟩).2 = false) ∧
    live ((erase (fun k => k) ((insert (fun k => k) (mkmap Nat Nat) 5 7).1)
          0 ⟨some 0, some 0⟩).1) 0 = false := by decide

/-- Claim C6 amended: erase throws invalid_iterator exactly when the
cursor holds a null node pointer or an owning tag different from this
container (covering past-the-end and foreign cursors, not stale ones),
and whenever it throws the container state is exactly unchanged. -/
theorem erase_throw_condition (hk : K → Nat) :
    ∀ (m : linked_hashmap K V) (self : Nat) (it : iterator),
      ((erase hk m self it).2 = true ↔
        (it.node = none ∨ it.map ≠ some self)) ∧
      ((erase hk m self it).2 = true → (erase hk m self it).1 = m) := by
  intro m self it
  unfold erase
  by_cases hguard : it.node.isNone ∨ it.map ≠ some self
  · rw [if_pos hguard]
    refine ⟨⟨fun _ => ?_, fun _ => rfl⟩, fun _ => rfl⟩
    rcases hguard with h | h
    · exact Or.inl (Option.isNone_iff_eq_none.1 h)
    · exact Or.inr h
  · rw [if_neg hguard]
    push_neg at hguard
    obtain ⟨hnode, hmap⟩ := hguard
    cases hnd : it.node with
    | none => simp [hnd] at hnode
    | some nid =>
      have hprop : ¬(it.node = none ∨ it.map ≠ some self) := by
        rw [hnd]
        push_neg
        exact ⟨Option.some_ne_none nid, hmap⟩
      cases hf : m.order.find? (fun x => x.id = nid) with
      | some n => simp [hnd, hf, hprop, hmap]
      | none => simp [hnd, hf, hprop, hmap]

theorem erase_throw_condition_witness :
    (erase (fun k => k) (mkmap Nat Nat) 0 (endIt 0)).2 = true ∧
    (erase (fun k => k) (mkmap Nat Nat) 0 (endIt 0)).1 = mkmap Nat Nat := by
  have h := erase_throw_condition (fun k => k) (mkmap Nat Nat) 0 (endIt 0)
  have ht : (erase (fun k => k) (mkmap Nat Nat) 0 (endIt 0)).2 = true :=
    h.1.mpr (Or.inl rfl)
  exact ⟨ht, h.2 ht⟩

/-- Claim C8: stepping backward from the past-the-end cursor yields the
tail of the order list; stepping forward from past-the-end throws;
stepping a cursor with no owning container throws in both directions;
dereferencing a cursor with a null node reference throws. -/
theorem iterator_boundaries :
    (∀ (m : linked_hashmap K V) (self : Nat) (h : m.order ≠ []),
      decIt m (endIt self) =
        (⟨some ((m.order.getLast h).id), some self⟩, false)) ∧
    (∀ (m : linked_hashmap K V) (self : Nat),
      incIt m (endIt self) = (endIt self, true)) ∧
    (∀ (m : linked_hashmap K V) (it : iterator), it.map = none →
      incIt m it = (it, true) ∧ decIt m it = (it, true)) ∧
    (∀ (m : linked_hashmap K V) (it : iterator), it.node = none →
      derefIt m it = none) := by
  refine ⟨?_, ?_, ?_, ?_⟩
  · intro m self h
    simp [decIt, endIt, tailId, List.getLast?_eq_getLast _ h]
  · intro m self
    rfl
  · intro m it hmap
    obtain ⟨nd, mp⟩ := it
    simp only at hmap
    subst hmap
    cases nd <;> exact ⟨rfl, rfl⟩
  · intro m it hnode
    obtain ⟨nd, mp⟩ := it
    simp only at hnode
    subst hnode
    rfl

theorem iterator_boundaries_witness :
    decIt ((insert (fun k => k) (mkmap Nat Nat) 1 10).1) (endIt 5) =
      (⟨some 0, some 5⟩, false) ∧
    incIt (mkmap Nat Nat) (endIt 5) = (endIt 5, true) ∧
    incIt (mkmap Nat Nat) ⟨some 3, none⟩ = (⟨some 3, none⟩, true) ∧
    derefIt (mkmap Nat Nat) (endIt 5) = none := by
  have h1 := iterator_boundaries.1
    ((insert (fun k => k) (mkmap Nat Nat) 1 10).1) 5 (by decide)
  refine ⟨?_, iterator_boundaries.2.1 (mkmap Nat Nat) 5,
    (iterator_boundaries.2.2.1 (mkmap Nat Nat) ⟨some 3, none⟩ rfl).1,
    iterator_boundaries.2.2.2 (mkmap Nat Nat) (endIt 5) rfl⟩
  rw [h1]
  decide

/-- Claim C10: decrementing a cursor that has an owning container never
throws; at the first entry of a nonempty container the result is the
past-the-end cursor, and at past-the-end of an empty container the result
is past-the-end again. -/
theorem dec_with_owner_total :
    (∀ (m : linked_hashmap K V) (it : iterator), it.map.isSome →
      (decIt m it).2 = false) ∧
    (∀ (m : linked_hashmap K V) (self : Nat) (n : Node K V)
      (rest : List (Node K V)), m.order = n :: rest →
      decIt m ⟨some n.id, some self⟩ = (endIt self, false)) ∧
    (∀ (m : linked_hashmap K V) (self : Nat), m.order = [] →
      decIt m (endIt self) = (endIt self, false)) := by
  refine ⟨?_, ?_, ?_⟩
  · intro m it h
    cases hm : it.map with
    | none => rw [hm] at h; simp at h
    | some mp => cases hn : it.node <;> simp [decIt, hm, hn]
  · intro m self n rest h
    simp [decIt, predId, idxOfId, h, List.findIdx?_cons, endIt]
  · intro m self h
    simp [decIt, endIt, tailId, h]

theorem dec_with_owner_total_witness :
    (decIt ((insert (fun k => k) (mkmap Nat Nat) 1 10).1)
      ⟨some 0, some 7⟩).2 = false ∧
    decIt ((insert (fun k => k) (mkmap Nat Nat) 1 10).1) ⟨some 0, some 7⟩ =
      (endIt 7, false) ∧
    decIt (mkmap Nat Nat) (endIt 7) = (endIt 7, false) := by
  refine ⟨dec_with_owner_total.1 _ ⟨some 0, some 7⟩ rfl, ?_,
    dec_with_owner_total.2.2 (mkmap Nat Nat) 7 rfl⟩
  exact dec_with_owner_total.2.1 _ 7 (Node.mk 0 1 10) [] (by decide)

theorem foldl_chainStep_length (hk : K → Nat) (sz : Nat)
    (l : List (Node K V)) :
    ∀ tbl, (l.foldl (chainStep hk sz) tbl).length = tbl.length := by
  induction l with
  | nil => intro tbl; rfl
  | cons n rest ih =>
    intro tbl
    rw [List.foldl_cons, ih, chainStep_length]

theorem distribute_length_uncond (hk : K → Nat) (sz : Nat)
    (l : List (Node K V)) : (distribute hk sz l).length = sz := by
  rw [distribute, foldl_chainStep_length]
  simp

/-- Claim C2: in every well-formed container, a key holding an entry is
found: find returns the cursor to that entry, dereferencing that cursor
yields the stored pair, and count is 1; a key holding no entry yields
find equal to the past-the-end cursor and count 0. -/
theorem lookup_correct {hk : K → Nat} {m : linked_hashmap K V}
    (hwf : WF hk m) (self : Nat) :
    (∀ n ∈ m.order, find hk m self n.key = ⟨some n.id, some self⟩ ∧
      derefIt m (find hk m self n.key) = some (n.key, n.data) ∧
      count hk m n.key = 1) ∧
    (∀ k, k ∉ keys m →
      find hk m self k = endIt self ∧ count hk m k = 0) := by
  constructor
  · intro n hn
    have hfn := find_node_complete hwf hn
    have hid : m.order.find? (fun x => x.id = n.id) = some n :=
      find?_proj_eq (f := fun x => x.id) hwf.ids_nodup hn
    exact ⟨by simp [find, hfn], by simp [find, hfn, derefIt, hid],
      by simp [count, hfn]⟩
  · intro k hk2
    have hfn : find_node hk m k = none := (find_node_none_iff hwf).2 hk2
    exact ⟨by simp [find, hfn], by simp [count, hfn]⟩

theorem lookup_correct_witness :
    find (fun k => k) ((insert (fun k => k) (mkmap Nat Nat) 1 10).1) 0
      (Node.mk 0 1 10).key = ⟨some 0, some 0⟩ ∧
    derefIt ((insert (fun k => k) (mkmap Nat Nat) 1 10).1)
      (find (fun k => k) ((insert (fun k => k) (mkmap Nat Nat) 1 10).1) 0
        (Node.mk 0 1 10).key) = some (1, 10) ∧
    count (fun k => k) ((insert (fun k => k) (mkmap Nat Nat) 1 10).1)
      (Node.mk 0 1 10).key = 1 ∧
    find (fun k => k) ((insert (fun k => k) (mkmap Nat Nat) 1 10).1) 0 2 =
      endIt 0 ∧
    count (fun k => k) ((insert (fun k => k) (mkmap Nat Nat) 1 10).1)
      2 = 0 := by
  have h := lookup_correct (WF_insert (WF_mkmap (fun k => k)) 1 10) 0
  have h1 := h.1 (Node.mk 0 1 10) (by decide)
  have h2 := h.2 2 (by decide)
  exact ⟨h1.1, h1.2.1, h1.2.2, h2.1, h2.2⟩

/-- Claim C5: erasing through a valid cursor for the entry holding key k
does not throw, afterwards count of k is 0, size has decreased by exactly
one, and all other entries keep their values and their relative order. -/
theorem erase_frame {hk : K → Nat} {m : linked_hashmap K V}
    (hwf : WF hk m) {n : Node K V} (hn : n ∈ m.order) (self : Nat) :
    (erase hk m self ⟨some n.id, some self⟩).2 = false ∧
    count hk (erase hk m self ⟨some n.id, some self⟩).1 n.key = 0 ∧
    size (erase hk m self ⟨some n.id, some self⟩).1 + 1 = size m ∧
    entries (erase hk m self ⟨some n.id, some self⟩).1 =
      (entries m).filter (fun p => p.1 ≠ n.key) := by
  have hid : m.order.find? (fun x => x.id = n.id) = some n :=
    find?_proj_eq (f := fun x => x.id) hwf.ids_nodup hn
  have hguard : ¬((⟨some n.id, some self⟩ : iterator).node.isNone ∨
      (⟨some n.id, some self⟩ : iterator).map ≠ some self) := by
    push_neg
    exact ⟨by simp, rfl⟩
  have herase : erase hk m self ⟨some n.id, some self⟩ =
      (removeNode hk m n, false) := by
    unfold erase
    rw [if_neg hguard]
    simp [hid]
  obtain ⟨hwf2, horder, hcount, hts, hkey, hent⟩ := removeNode_spec hwf hn
  rw [herase]
  refine ⟨rfl, ?_, ?_, hent⟩
  · have hfn : find_node hk (removeNode hk m n) n.key = none :=
      (find_node_none_iff hwf2).2 hkey
    simp [count, hfn]
  · exact hcount

theorem erase_frame_witness :
    (erase (fun k => k) ((insert (fun k => k)
        ((insert (fun k => k) (mkmap Nat Nat) 1 10).1) 2 20).1) 3
      ⟨some (Node.mk 0 1 10).id, some 3⟩).2 = false ∧
    count (fun k => k) ((erase (fun k => k) ((insert (fun k => k)
        ((insert (fun k => k) (mkmap Nat Nat) 1 10).1) 2 20).1) 3
      ⟨some (Node.mk 0 1 10).id, some 3⟩).1) (Node.mk 0 1 10).key = 0 ∧
    size ((erase (fun k => k) ((insert (fun k => k)
        ((insert (fun k => k) (mkmap Nat Nat) 1 10).1) 2 20).1) 3
      ⟨some (Node.mk 0 1 10).id, some 3⟩).1) + 1 =
      size ((insert (fun k => k)
        ((insert (fun k => k) (mkmap Nat Nat) 1 10).1) 2 20).1) ∧
    entries ((erase (fun k => k) ((insert (fun k => k)
        ((insert (fun k => k) (mkmap Nat Nat) 1 10).1) 2 20).1) 3
      ⟨some (Node.mk 0 1 10).id, some 3⟩).1) =
      (entries ((insert (fun k => k)
        ((insert (fun k => k) (mkmap Nat Nat) 1 10).1) 2 20).1)).filter
        (fun p => p.1 ≠ (Node.mk 0 1 10).key) :=
  erase_frame
    (WF_insert (WF_insert (WF_mkmap (fun k => k)) 1 10) 2 20)
    (by decide) 3

/-- Claim C7: bounds-checked access raises exactly when the key is absent
and does not insert, while access-or-insert never fails: on a present key
it returns the stored value, on an absent key it first inserts the key
with the default value and then returns that value. -/
theorem at_index_access {hk : K → Nat} [Inhabited V]
    {m : linked_hashmap K V} (hwf : WF hk m) :
    (∀ n ∈ m.order, at_ hk m n.key = some n.data ∧
      index hk m n.key = (m, some n.data)) ∧
    (∀ k, k ∉ keys m → at_ hk m k = none ∧
      (index hk m k).2 = some (default : V) ∧
      entries (index hk m k).1 = entries m ++ [(k, default)]) := by
  constructor
  · intro n hn
    have hfn := find_node_complete hwf hn
    exact ⟨by simp [at_, hfn], by simp [index, hfn]⟩
  · intro k hk2
    have hfn : find_node hk m k = none := (find_node_none_iff hwf).2 hk2
    have hent := (insert_absent_spec hwf hk2 (default : V)).1
    have hwf2 := WF_insert hwf k (default : V)
    have hkm : (k, (default : V)) ∈
        entries (insert hk m k (default : V)).1 := by
      rw [hent]
      simp
    obtain ⟨n2, hn2, hn2eq⟩ := List.mem_map.1 hkm
    have hkey2 : n2.key = k := congrArg Prod.fst hn2eq
    have hdata2 : n2.data = (default : V) := congrArg Prod.snd hn2eq
    have hfn2 : find_node hk (insert hk m k (default : V)).1 k = some n2 := by
      have h := find_node_complete hwf2 hn2
      rw [hkey2] at h
      exact h
    refine ⟨by simp [at_, hfn], ?_, ?_⟩
    · simp [index, hfn, hfn2, hdata2]
    · simp only [index, hfn]
      exact hent

theorem at_index_access_witness :
    (at_ (fun k => k) ((insert (fun k => k) (mkmap Nat Nat) 1 10).1)
      (Node.mk 0 1 10).key = some (Node.mk 0 1 10).data ∧
     index (fun k => k) ((insert (fun k => k) (mkmap Nat Nat) 1 10).1)
      (Node.mk 0 1 10).key =
      ((insert (fun k => k) (mkmap Nat Nat) 1 10).1,
        some (Node.mk 0 1 10).data)) ∧
    (at_ (fun k => k) ((insert (fun k => k) (mkmap Nat Nat) 1 10).1) 2 =
      none ∧
     (index (fun k => k) ((insert (fun k => k) (mkmap Nat Nat) 1 10).1)
      2).2 = some (default : Nat) ∧
     entries (index (fun k => k)
        ((insert (fun k => k) (mkmap Nat Nat) 1 10).1) 2).1 =
      entries ((insert (fun k => k) (mkmap Nat Nat) 1 10).1) ++
        [(2, default)]) := by
  have h := at_index_access (WF_insert (WF_mkmap (fun k => k)) 1 10)
  exact ⟨h.1 (Node.mk 0 1 10) (by decide), h.2 2 (by decide)⟩

/-- Claim C4: after every successful insertion the load invariant
4 times size at most 3 times capacity (that is, size at most 0.75 times
capacity) holds; one insert call either keeps the capacity or doubles it;
clear and node removal keep the capacity; and inserting 13 distinct keys
into a fresh container leaves capacity 16 through the 12th insertion,
grows to 32 exactly on the 13th, with all 13 keys still found. -/
theorem growth_invariant (hk : K → Nat) :
    (∀ (m : linked_hashmap K V) (k : K) (v : V), WF hk m →
      (insert hk m k v).2.2 = true →
      4 * size (insert hk m k v).1 ≤ 3 * (insert hk m k v).1.table_size) ∧
    (∀ (m : linked_hashmap K V) (k : K) (v : V),
      (insert hk m k v).1.table_size = m.table_size ∨
      (insert hk m k v).1.table_size = m.table_size * 2) ∧
    (∀ m : linked_hashmap K V, (clear m).table_size = m.table_size) ∧
    (∀ (m : linked_hashmap K V) (n : Node K V),
      (removeNode hk m n).table_size = m.table_size) ∧
    ((insertAll (fun i => i) (mkmap Nat Nat)
        ((List.range 12).map (fun i => (i, i)))).table_size = 16 ∧
     (insertAll (fun i => i) (mkmap Nat Nat)
        ((List.range 13).map (fun i => (i, i)))).table_size = 32 ∧
     size (insertAll (fun i => i) (mkmap Nat Nat)
        ((List.range 13).map (fun i => (i, i)))) = 13 ∧
     ((List.range 13).all (fun k =>
        count (fun i => i) (insertAll (fun i => i) (mkmap Nat Nat)
          ((List.range 13).map (fun i => (i, i)))) k == 1)) = true) := by
  refine ⟨?_, ?_, ?_, ?_, by decide⟩
  · intro m k v hwf _
    exact (WF_insert hwf k v).load
  · intro m k v
    cases hfn : find_node hk m k with
    | some n =>
      rw [insert_of_found hfn v]
      exact Or.inl rfl
    | none =>
      simp only [insert, hfn]
      by_cases htrig : 3 * m.table_size ≤ 4 * m.element_count
      · simp only [if_pos htrig]
        right
        show (chainStep hk (rehash hk m).table_size (rehash hk m).buckets
          _).length = m.table_size * 2
        rw [chainStep_length]
        exact distribute_length_uncond hk _ m.order
      · simp only [if_neg htrig]
        left
        show (chainStep hk m.table_size m.buckets _).length = m.table_size
        rw [chainStep_length]
        rfl
  · intro m
    exact table_size_clear m
  · intro m n
    simp [removeNode, table_size]

theorem growth_invariant_witness :
    4 * size (insert (fun k => k) (mkmap Nat Nat) 1 10).1 ≤
      3 * (insert (fun k => k) (mkmap Nat Nat) 1 10).1.table_size :=
  (growth_invariant (fun k => k)).1 (mkmap Nat Nat) 1 10
    (WF_mkmap (fun k => k)) (by decide)

/-- Claim C9: copying traverses the source order list head to tail and
re-inserts every pair, so the copy holds the same entries in the same
iteration order; the copy starts at the current capacity of the source
and the re-insertions never grow it; assignment to a different container
produces the same state as the copy loop, and self assignment returns the
destination unchanged. -/
theorem copy_semantics {hk : K → Nat} {src : linked_hashmap K V}
    (hwf : WF hk src) :
    entries (copy hk src) = entries src ∧
    (copy hk src).table_size = src.table_size ∧
    (∀ dst : linked_hashmap K V, assign hk dst src false = copy hk src) ∧
    (∀ dst : linked_hashmap K V, assign hk dst src true = dst) := by
  have hfold : copy hk src =
      insertAll hk (emptyWith K V src.table_size) (entries src) := by
    rw [copy, insertAll, entries, List.foldl_map]
  have hwfe : WF hk (emptyWith K V src.table_size) :=
    WF_emptyWith hk src.table_size hwf.ts_pos hwf.ts_dvd
  have habs : ∀ p ∈ entries src,
      p.1 ∉ keys (emptyWith K V src.table_size) := by
    intro p hp
    simp [keys, emptyWith]
  have hnd : ((entries src).map Prod.fst).Nodup := by
    rw [← keys_eq_entries_fst]
    exact hwf.keys_nodup
  obtain ⟨hwfc, hent, hle, heq⟩ :=
    insertAll_spec hk (entries src) _ hwfe habs hnd
  have hload : 4 * ((emptyWith K V src.table_size).element_count +
      (entries src).length) ≤
      3 * (emptyWith K V src.table_size).table_size := by
    rw [table_size_emptyWith]
    show 4 * (0 + (entries src).length) ≤ 3 * src.table_size
    have hlen : (entries src).length = src.order.length := by simp [entries]
    rw [hlen]
    have hl := hwf.load
    have hc := hwf.count_eq
    omega
  refine ⟨?_, ?_, fun dst => rfl, fun dst => rfl⟩
  · rw [hfold, hent]
    simp [entries, emptyWith]
  · rw [hfold, heq hload, table_size_emptyWith]

theorem copy_semantics_witness :
    entries (copy (fun k => k)
      ((insert (fun k => k) (mkmap Nat Nat) 1 10).1)) =
      entries ((insert (fun k => k) (mkmap Nat Nat) 1 10).1) ∧
    (copy (fun k => k)
      ((insert (fun k => k) (mkmap Nat Nat) 1 10).1)).table_size =
      ((insert (fun k => k) (mkmap Nat Nat) 1 10).1).table_size ∧
    assign (fun k => k) (mkmap Nat Nat)
      ((insert (fun k => k) (mkmap Nat Nat) 1 10).1) false =
      copy (fun k => k) ((insert (fun k => k) (mkmap Nat Nat) 1 10).1) ∧
    assign (fun k => k) (mkmap Nat Nat)
      ((insert (fun k => k) (mkmap Nat Nat) 1 10).1) true =
      mkmap Nat Nat := by
  have h := copy_semantics (WF_insert (WF_mkmap (fun k => k)) 1 10)
  exact ⟨h.1, h.2.1, h.2.2.1 (mkmap Nat Nat), h.2.2.2 (mkmap Nat Nat)⟩

end linked_hashmap

end sjtu
